import Mathlib

/-!
Shallow embedding of the derive-macro code generator in
`src/derive/src/lib.rs` of the `stellare-types` repository.

The generator consumes a parsed struct declaration (`DeriveInput`) and, for a
list of operator trait names, emits for each operator a value implementation
and an assignment (in-place) implementation, in two modes: broadcast
(`bc_ops`, record against a single scalar operand) and componentwise
(`cw_ops`, record against record).  Panics (`unwrap`, `panic!` in the Rust
source) are modelled by `Option.none`; the outcomes of external parsers
(`str::parse`, `Attribute::parse_args`) are carried as data on the input,
since the generator only branches on success or failure and forwards the
diagnostic.
-/

/-- A type expression (`syn::Type`), opaque token text. -/
structure Ty where
  tokens : String
deriving DecidableEq, Repr

/-- A bound in a bound-list (`syn::TypeParamBound`): a trait bound carries its
path (ordered segment identifiers) and, when present, the `Output = ty`
associated-type binding attached by the generator; a lifetime bound carries
its name. -/
inductive TypeParamBound where
  | traitB (segments : List String) (outputBinding : Option Ty)
  | lifetimeB (name : String)
deriving DecidableEq, Repr

/-- A predicate of a where-clause (`syn::WherePredicate`): either a bounded
type with its ordered bound-list, or a lifetime predicate. -/
inductive WherePredicate where
  | typeP (bounded_ty : Ty) (bounds : List TypeParamBound)
  | lifetimeP (name : String)
deriving DecidableEq, Repr

/-- Outcome of parsing a string as tokens for the generated code
(`str::parse::<TokenStream2>` on the override literal's value). -/
inductive ParseOutcome where
  | ok (expr : String)
  | err (diag : String)
deriving DecidableEq, Repr

/-- Outcome and shape of `Attribute::parse_args::<Expr>()` on an
`op_override` attribute: the args failed to parse at all; or they parsed to a
string-literal expression (with the literal's raw text and the outcome of
parsing its value); or to a non-string literal; or to a non-literal
expression.  The `tokens` of the failing shapes are the source text the
emitted diagnostic is spanned to. -/
inductive OverrideArg where
  | argsErr (diag : String)
  | litStr (raw : String) (outcome : ParseOutcome)
  | litOther (tokens : String)
  | nonLit (tokens : String)
deriving DecidableEq, Repr

/-- A field attribute: its path (modelled as the single identifier tested by
`path().is_ident`) and the shape of its arguments. -/
structure Attr where
  name : String
  arg : OverrideArg
deriving DecidableEq, Repr

/-- A struct field (`syn::Field`): optional identifier and attribute list. -/
structure FieldDecl where
  ident : Option String
  attrs : List Attr
deriving DecidableEq, Repr

/-- The fields of a struct declaration (`syn::Fields`). -/
inductive StructFields where
  | named (fields : List FieldDecl)
  | unnamed (fields : List FieldDecl)
  | unit
deriving DecidableEq, Repr

/-- The data of a declaration (`syn::Data`). -/
inductive Data where
  | structD (fields : StructFields)
  | enumD
  | unionD
deriving DecidableEq, Repr

/-- A generic parameter (`syn::GenericParam`); type parameters carry an
optional default, stripped by `generics`. -/
inductive GenericParam where
  | typeParam (ident : String) (bounds : List TypeParamBound) (default : Option Ty)
  | lifetimeParam (name : String)
  | constParam (spec : String)
deriving DecidableEq, Repr

/-- Model of `syn::Generics`: parameter list and optional where-clause. -/
structure Generics where
  params : List GenericParam
  where_clause : Option (List WherePredicate)
deriving DecidableEq, Repr

/-- A parsed declaration (`syn::DeriveInput`). -/
structure DeriveInput where
  ident : String
  generics : Generics
  data : Data
deriving DecidableEq, Repr

/-- Rust's `Iterator::find_map`: first `some` result of `f`, scanning left to
right. -/
def find_map {α β : Type} (f : α → Option β) : List α → Option β
  | [] => none
  | a :: as =>
    match f a with
    | some b => some b
    | none => find_map f as

/-- The closure passed to `find_map` in `bc_ops`/`cw_ops`: on a trait bound,
whether the final path segment's identifier equals `Scalar` (`none` when the
path has no segments); on any other bound, `none`. -/
def boundScalarCheck : TypeParamBound → Option Bool
  | .traitB segments _ => segments.getLast?.map (fun e => e == "Scalar")
  | .lifetimeB _ => none

/-- The `has_scalar` value as computed per predicate bound-list in the source:
`ty.bounds.iter().find_map(boundScalarCheck)`. -/
def has_scalar (bounds : List TypeParamBound) : Option Bool :=
  find_map boundScalarCheck bounds

/-- The guard `has_scalar.is_some_and(|e| e)` deciding deciding whether a predicate is
treated as carrying the scalar-capability marker. -/
def predicateMatches : WherePredicate → Bool
  | .typeP _ bounds => (has_scalar bounds).getD false
  | .lifetimeP _ => false

/-- The bound pushed on a matched predicate in the value loop:
`std::ops::#trait_ident<Output = #path>` where `path` is the predicate's
bounded type. -/
def valueBoundOf (op : String) (ty : Ty) : TypeParamBound :=
  .traitB ["std", "ops", op] (some ty)

/-- The bound pushed on a matched predicate in the assignment loop:
`std::ops::#ass_trait_ident` with `ass_trait_ident = format_ident!("{}Assign", op)`. -/
def assignBoundOf (op : String) : TypeParamBound :=
  .traitB ["std", "ops", op ++ "Assign"] none

/-- One iteration of the value-clause loop body: a matched type predicate gets
the value bound appended to its bound-list; everything else is untouched. -/
def augmentValuePred (op : String) : WherePredicate → WherePredicate
  | .typeP ty bounds =>
    if (has_scalar bounds).getD false then
      .typeP ty (bounds ++ [valueBoundOf op ty])
    else
      .typeP ty bounds
  | p => p

/-- One iteration of the assignment-clause loop body. -/
def augmentAssignPred (op : String) : WherePredicate → WherePredicate
  | .typeP ty bounds =>
    if (has_scalar bounds).getD false then
      .typeP ty (bounds ++ [assignBoundOf op])
    else
      .typeP ty bounds
  | p => p

/-- The mutated clone `where_clause` after the value loop of one operator. -/
def augmentValueClause (op : String) (wc : List WherePredicate) : List WherePredicate :=
  wc.map (augmentValuePred op)

/-- The mutated clone `ass_where_clause` after the assignment loop of one
operator. -/
def augmentAssignClause (op : String) (wc : List WherePredicate) : List WherePredicate :=
  wc.map (augmentAssignPred op)

/-- One step of the `scalar_type` capture: a matching type predicate
overwrites the accumulator with its bounded type; anything else leaves it. -/
def scalarStep (acc : Option Ty) (p : WherePredicate) : Option Ty :=
  match p with
  | .typeP ty bounds => if (has_scalar bounds).getD false then some ty else acc
  | .lifetimeP _ => acc

/-- The `scalar_type` variable after the value loop of one broadcast operator:
starts at `None` and is overwritten per matching predicate in scan order.
(The source reads each predicate's `has_scalar` before pushing that
predicate's new bound, so scanning the original clause is equivalent.) -/
def scalarTypeScan (wc : List WherePredicate) : Option Ty :=
  wc.foldl scalarStep none

/-- The identifier a component refers to: a named field's identifier, or the
`Index` assigned to a positional field. -/
inductive FieldIdent where
  | namedI (s : String)
  | indexI (i : Nat)
deriving DecidableEq, Repr

/-- The token stream substituted for an overridden field: the successfully
parsed tokens of the override string, or a `compile_error!` expression
(`syn::Error::into_compile_error`) carrying a diagnostic spanned to the
`anchor` source tokens. -/
inductive Replacement where
  | parsedTokens (s : String)
  | compileErr (diag : String) (anchor : String)
deriving DecidableEq, Repr

/-- The `ComponentCase` enum from the source. -/
inductive ComponentCase where
  | operate (ident : FieldIdent)
  | overrideC (ident : FieldIdent) (replacement : Replacement)
deriving DecidableEq, Repr

/-- The replacement computed from a found `op_override` attribute's argument
shape (`ComponentsIter::next`, the `map` over the found attribute):
parse-args failure forwards its diagnostic; a string literal is parsed, a
parse error becoming a compile error spanned to the literal
(`Error::new_spanned(litstr, e)`); any other literal or expression becomes an
`Expected string literal` error spanned to it. -/
def overrideReplacement : OverrideArg → Replacement
  | .argsErr diag => .compileErr diag "op_override args"
  | .litStr raw outcome =>
    match outcome with
    | .ok expr => .parsedTokens expr
    | .err diag => .compileErr diag raw
  | .litOther tokens => .compileErr "Expected string literal" tokens
  | .nonLit tokens => .compileErr "Expected string literal" tokens

/-- One `ComponentsIter::next` step on one field, threading `field_idx`: a
named field keeps its identifier; an unnamed one takes the current index and
bumps the counter.  The first attribute whose path is `op_override` decides
override vs operate. -/
def componentNext (idx : Nat) (field : FieldDecl) : ComponentCase × Nat :=
  let identAndIdx : FieldIdent × Nat :=
    match field.ident with
    | some i => (.namedI i, idx)
    | none => (.indexI idx, idx + 1)
  let found := field.attrs.find? (fun a => a.name == "op_override")
  match found with
  | some a => (.overrideC identAndIdx.1 (overrideReplacement a.arg), identAndIdx.2)
  | none => (.operate identAndIdx.1, identAndIdx.2)

/-- Draining `ComponentsIter` from a given `field_idx`. -/
def componentsFrom (idx : Nat) : List FieldDecl → List ComponentCase
  | [] => []
  | f :: fs =>
    let step := componentNext idx f
    step.1 :: componentsFrom step.2 fs

/-- The iterator of `create_components_iter`, drained: `none` models the `panic!` on non-struct
data and the `todo!` on unit structs.  `field_idx` starts at 0 per invocation. -/
def create_components_iter (ast : DeriveInput) : Option (List ComponentCase) :=
  match ast.data with
  | .structD fs =>
    match fs with
    | .named l => some (componentsFrom 0 l)
    | .unnamed l => some (componentsFrom 0 l)
    | .unit => none
  | .enumD => none
  | .unionD => none

/-- The helper `generics(&ast)`: the impl-generics token list — type parameters repeated
with their bounds but defaults stripped, lifetime and const parameters
verbatim. -/
def generics (ast : DeriveInput) : List GenericParam :=
  ast.generics.params.map
    (fun param =>
      match param with
      | .typeParam ident bounds _ => .typeParam ident bounds none
      | .lifetimeParam lt => .lifetimeParam lt
      | .constParam c => .constParam c)

/-- The right-hand operand type position of an emitted implementation header:
the interpolation `#scalar_type` of `Option<Type>` leaves the position empty
when `None` (broadcast, no match), fills the captured type when `Some`
(broadcast), and is the little `Self`-typed operand in componentwise mode. -/
inductive Operand where
  | unfilled
  | scalarTy (t : Ty)
  | selfTy
deriving DecidableEq, Repr

/-- A constructor entry's right-hand side in a value implementation body. -/
inductive ValueExpr where
  | opBroadcast (traitName funcName : String) (field : FieldIdent)
  | opComponentwise (traitName funcName : String) (field : FieldIdent)
  | replacementE (r : Replacement)
deriving DecidableEq, Repr

/-- One statement of an assignment implementation body. -/
inductive AssignStmt where
  | asgBroadcast (traitName funcName : String) (field : FieldIdent)
  | asgComponentwise (traitName funcName : String) (field : FieldIdent)
deriving DecidableEq, Repr

/-- An emitted implementation block: value (`impl Trait<rhs> for Name { type
Output = Self; fn f(self, other) -> Self { Self { body } } }`) or assignment
(`impl TraitAssign<rhs> for Name { fn f(&mut self, other) { body } }`). -/
inductive Impl where
  | valueI (traitName funcName : String) (operand : Operand)
      (implGenerics : List GenericParam) (whereClause : List WherePredicate)
      (body : List (FieldIdent × ValueExpr))
  | assignI (traitName funcName : String) (operand : Operand)
      (implGenerics : List GenericParam) (whereClause : List WherePredicate)
      (body : List AssignStmt)
deriving DecidableEq, Repr

/-- Broadcast value-body entry pushed per component (`op.push` in `bc_ops`):
`#ident: std::ops::#trait_ident::#func_ident(self.#ident, other)` for operate,
`#ident: #replacement` for override. -/
def bcValueEntry (traitName funcName : String) : ComponentCase → FieldIdent × ValueExpr
  | .operate i => (i, .opBroadcast traitName funcName i)
  | .overrideC i r => (i, .replacementE r)

/-- Broadcast assignment-body statement per component (`ass_op.push`): only
operate components contribute. -/
def bcAssignEntry (traitName funcName : String) : ComponentCase → Option AssignStmt
  | .operate i => some (.asgBroadcast traitName funcName i)
  | .overrideC _ _ => none

/-- Componentwise value-body entry pushed per component (`op.push` in
`cw_ops`): the operate case reads `other.#ident`. -/
def cwValueEntry (traitName funcName : String) : ComponentCase → FieldIdent × ValueExpr
  | .operate i => (i, .opComponentwise traitName funcName i)
  | .overrideC i r => (i, .replacementE r)

/-- Componentwise assignment-body statement per component. -/
def cwAssignEntry (traitName funcName : String) : ComponentCase → Option AssignStmt
  | .operate i => some (.asgComponentwise traitName funcName i)
  | .overrideC _ _ => none

/-- Model of `str::to_lowercase` on an operator trait name (`func_ident`), written via
a per-character map so it computes by kernel reduction. -/
def to_lowercase (s : String) : String :=
  String.mk (s.data.map Char.toLower)

/-- The body of the `for op in ops` loop of `bc_ops` for one operator name:
the two impls pushed for it, `none` on any panic.  The order of fallible
steps follows the source: the value clause's `unwrap` (line 38), the
assignment clause's `unwrap` (line 60), then `create_components_iter`
(line 75). -/
def bcOpImpls (ast : DeriveInput) (op : String) : Option (List Impl) := do
  let traitName := op
  let funcName := (to_lowercase op)
  let wc ← ast.generics.where_clause
  let valueWc := augmentValueClause op wc
  let scalar_type := scalarTypeScan wc
  let assTraitName := op ++ "Assign"
  let assFuncName := funcName ++ "_assign"
  let awc ← ast.generics.where_clause
  let assignWc := augmentAssignClause op awc
  let comps ← create_components_iter ast
  let operand : Operand :=
    match scalar_type with
    | some t => .scalarTy t
    | none => .unfilled
  pure
    [Impl.valueI traitName funcName operand (generics ast) valueWc
        (comps.map (bcValueEntry traitName funcName)),
      Impl.assignI assTraitName assFuncName operand (generics ast) assignWc
        (comps.filterMap (bcAssignEntry assTraitName assFuncName))]

/-- The function `bc_ops`: the `impls` vector accumulated over the requested operators, in
order; `none` models a panic during generation. -/
def bc_ops (ast : DeriveInput) : List String → Option (List Impl)
  | [] => some []
  | op :: ops => do
    let head ← bcOpImpls ast op
    let tail ← bc_ops ast ops
    pure (head ++ tail)

/-- The body of the `for op in ops` loop of `cw_ops` for one operator name.
No `scalar_type` capture occurs; the operand of both impls is `Self`. -/
def cwOpImpls (ast : DeriveInput) (op : String) : Option (List Impl) := do
  let traitName := op
  let funcName := (to_lowercase op)
  let wc ← ast.generics.where_clause
  let valueWc := augmentValueClause op wc
  let assTraitName := op ++ "Assign"
  let assFuncName := funcName ++ "_assign"
  let awc ← ast.generics.where_clause
  let assignWc := augmentAssignClause op awc
  let comps ← create_components_iter ast
  pure
    [Impl.valueI traitName funcName .selfTy (generics ast) valueWc
        (comps.map (cwValueEntry traitName funcName)),
      Impl.assignI assTraitName assFuncName .selfTy (generics ast) assignWc
        (comps.filterMap (cwAssignEntry assTraitName assFuncName))]

/-- The function `cw_ops`: the `impls` vector accumulated over the requested operators. -/
def cw_ops (ast : DeriveInput) : List String → Option (List Impl)
  | [] => some []
  | op :: ops => do
    let head ← cwOpImpls ast op
    let tail ← cw_ops ast ops
    pure (head ++ tail)

/-- Entry point `BcBitops`. -/
def bc_bitops (ast : DeriveInput) : Option (List Impl) :=
  bc_ops ast ["BitAnd", "BitOr", "BitXor"]

/-- Entry point `BcArithmetic`. -/
def bc_arithmetic (ast : DeriveInput) : Option (List Impl) :=
  bc_ops ast ["Add", "Sub", "Mul", "Div"]

/-- Entry point `CwBitops`. -/
def cw_bitops (ast : DeriveInput) : Option (List Impl) :=
  cw_ops ast ["BitAnd", "BitOr", "BitXor"]

/-- Entry point `CwArithmetic`. -/
def cw_arithmetic (ast : DeriveInput) : Option (List Impl) :=
  cw_ops ast ["Add", "Sub", "Mul", "Div"]

/-- The operand-type position of an emitted implementation. -/
def Impl.operand : Impl → Operand
  | .valueI _ _ o _ _ _ => o
  | .assignI _ _ o _ _ _ => o

/-- The where-clause attached to an emitted implementation. -/
def Impl.whereClause : Impl → List WherePredicate
  | .valueI _ _ _ _ w _ => w
  | .assignI _ _ _ _ w _ => w

/-- The bound-list of a predicate (empty for lifetime predicates). -/
def predBounds : WherePredicate → List TypeParamBound
  | .typeP _ bounds => bounds
  | .lifetimeP _ => []

/-- Whether a bound is the scalar-capability marker per the spec's reading:
its final path segment is `Scalar`. -/
def isScalarBound : TypeParamBound → Bool
  | .traitB segments _ => segments.getLast? == some "Scalar"
  | .lifetimeB _ => false

/-- The identifier a component refers to. -/
def ComponentCase.ident : ComponentCase → FieldIdent
  | .operate i => i
  | .overrideC i _ => i

/-- The field an assignment statement mutates. -/
def AssignStmt.field : AssignStmt → FieldIdent
  | .asgBroadcast _ _ f => f
  | .asgComponentwise _ _ f => f

/-- Whether a value-body entry's expression references the operands (`self.f`
or `other`): the generated operate calls do; an override replacement is
substituted verbatim, never wrapped in an operand access. -/
def ValueExpr.referencesOperands : ValueExpr → Bool
  | .opBroadcast _ _ _ => true
  | .opComponentwise _ _ _ => true
  | .replacementE _ => false

/-- The per-predicate contribution to `scalar_type`: the bounded type when the
predicate matches, nothing otherwise. -/
def predMatchTy : WherePredicate → Option Ty
  | .typeP ty bounds => if (has_scalar bounds).getD false then some ty else none
  | .lifetimeP _ => none

theorem find_map_append {α β : Type} (f : α → Option β) (xs ys : List α) :
    find_map f (xs ++ ys) =
      match find_map f xs with
      | some b => some b
      | none => find_map f ys := by
  induction xs with
  | nil => rfl
  | cons a as ih =>
    simp only [List.cons_append, find_map]
    cases f a with
    | some b => rfl
    | none => exact ih

theorem boundScalarCheck_some {b : TypeParamBound} {v : Bool}
    (h : boundScalarCheck b = some v) : isScalarBound b = v := by
  cases b with
  | traitB segments ob =>
    simp only [boundScalarCheck] at h
    cases hseg : segments.getLast? with
    | none => rw [hseg] at h; simp at h
    | some s =>
      rw [hseg] at h
      simp only [Option.map_some'] at h
      cases h
      simp [isScalarBound, hseg]
  | lifetimeB _ => simp [boundScalarCheck] at h

theorem hasScalar_iff_firstScanned (bounds : List TypeParamBound) :
    (has_scalar bounds).getD false = true ↔
      ∃ b, bounds.find? (fun b => (boundScalarCheck b).isSome) = some b ∧
        isScalarBound b = true := by
  induction bounds with
  | nil => simp [has_scalar, find_map]
  | cons b bs ih =>
    simp only [has_scalar, find_map]
    cases hb : boundScalarCheck b with
    | some v =>
      have hscan : ((boundScalarCheck b).isSome : Bool) = true := by
        rw [hb]; rfl
      simp only [List.find?, hscan, Option.getD_some]
      constructor
      · intro hv
        exact ⟨b, rfl, by rw [boundScalarCheck_some hb, hv]⟩
      · rintro ⟨b', hb', hsc⟩
        cases hb'
        rw [← boundScalarCheck_some hb]
        exact hsc
    | none =>
      have hscan : ((boundScalarCheck b).isSome : Bool) = false := by
        rw [hb]; rfl
      simp only [List.find?, hscan]
      simpa [has_scalar] using ih

/-- A predicate `T: Clone + Scalar`: the marker is present but is not the
first trait bound of the bound-list. -/
def c1Bounds : List TypeParamBound :=
  [.traitB ["Clone"] none, .traitB ["Scalar"] none]

/-- Bounded type of the counterexample predicate. -/
def c1Ty : Ty := ⟨"T"⟩

/-- The counterexample where-clause `where T: Clone + Scalar`. -/
def c1Wc : List WherePredicate := [.typeP c1Ty c1Bounds]

/-- C1 counterexample: in `where T: Clone + Scalar` a bound with final path
segment `Scalar` is present, yet the augmenter does not recognize the marker —
no bound is appended to either augmented constraint set and no broadcast
operand type is captured, because the scan stops at the first trait bound
(`Clone`). -/
theorem C1_counterexample :
    (c1Bounds.any isScalarBound = true) ∧
    predicateMatches (.typeP c1Ty c1Bounds) = false ∧
    augmentValueClause "Add" c1Wc = c1Wc ∧
    augmentAssignClause "Add" c1Wc = c1Wc ∧
    scalarTypeScan c1Wc = none := by
  refine ⟨by decide, by decide, ?_, ?_, by decide⟩ <;> decide

/-- C1 (amended): the augmenter recognizes the scalar-capability marker on a
`TypeParam` predicate iff the FIRST bound on which the scalar check yields a
verdict — the first trait bound with a nonempty path — has final path segment
`Scalar`; bounds after that first trait bound are never consulted. -/
theorem C1_theorem (ty : Ty) (bounds : List TypeParamBound) :
    predicateMatches (.typeP ty bounds) = true ↔
      ∃ b, bounds.find? (fun b => (boundScalarCheck b).isSome) = some b ∧
        isScalarBound b = true := by
  simpa [predicateMatches] using hasScalar_iff_firstScanned bounds

/-- C2: for each requested operator, the two augmented constraint sets keep
exactly the original predicates, in place; a `TypeParam` predicate recognized
as scalar-capable gains, on its own bounded type, exactly the one new bound
`std::ops::Op<Output = boundedTy>` in the value set and exactly
`std::ops::OpAssign` in the assignment set; every other predicate (unmatched
type predicates, lifetime predicates) is returned unchanged, so no other
bounds are added. -/
theorem C2_theorem (op : String) (wc : List WherePredicate) (i : Nat) :
    (augmentValueClause op wc).length = wc.length ∧
    (augmentAssignClause op wc).length = wc.length ∧
    (∀ ty bounds, wc[i]? = some (WherePredicate.typeP ty bounds) →
      (predicateMatches (WherePredicate.typeP ty bounds) = true →
        (augmentValueClause op wc)[i]? =
          some (WherePredicate.typeP ty (bounds ++ [valueBoundOf op ty])) ∧
        (augmentAssignClause op wc)[i]? =
          some (WherePredicate.typeP ty (bounds ++ [assignBoundOf op]))) ∧
      (predicateMatches (WherePredicate.typeP ty bounds) = false →
        (augmentValueClause op wc)[i]? = wc[i]? ∧
        (augmentAssignClause op wc)[i]? = wc[i]?)) ∧
    (∀ lt, wc[i]? = some (WherePredicate.lifetimeP lt) →
      (augmentValueClause op wc)[i]? = wc[i]? ∧
      (augmentAssignClause op wc)[i]? = wc[i]?) := by
  refine ⟨by simp [augmentValueClause], by simp [augmentAssignClause], ?_, ?_⟩
  · intro ty bounds hp
    constructor
    · intro hmatch
      simp only [predicateMatches] at hmatch
      constructor
      · simp [augmentValueClause, List.getElem?_map, hp, augmentValuePred, hmatch]
      · simp [augmentAssignClause, List.getElem?_map, hp, augmentAssignPred, hmatch]
    · intro hmatch
      simp only [predicateMatches] at hmatch
      constructor
      · simp [augmentValueClause, List.getElem?_map, hp, augmentValuePred, hmatch]
      · simp [augmentAssignClause, List.getElem?_map, hp, augmentAssignPred, hmatch]
  · intro lt hp
    constructor
    · simp [augmentValueClause, List.getElem?_map, hp, augmentValuePred]
    · simp [augmentAssignClause, List.getElem?_map, hp, augmentAssignPred]

theorem foldl_scalarStep_no_match (ps : List WherePredicate) (acc : Option Ty)
    (h : ∀ p ∈ ps, predMatchTy p = none) :
    ps.foldl scalarStep acc = acc := by
  induction ps generalizing acc with
  | nil => rfl
  | cons p ps ih =>
    have hp := h p (List.mem_cons_self p ps)
    have hstep : scalarStep acc p = acc := by
      cases p with
      | typeP ty bounds =>
        simp only [predMatchTy] at hp
        by_cases hc : (has_scalar bounds).getD false = true
        · rw [if_pos hc] at hp
          exact absurd hp (by simp)
        · simp only [scalarStep]
          rw [if_neg hc]
      | lifetimeP n => rfl
    rw [List.foldl_cons, hstep]
    exact ih acc fun q hq => h q (List.mem_cons_of_mem p hq)

theorem foldl_scalarStep_last (wc : List WherePredicate) (i : Nat) (t : Ty)
    (acc : Option Ty)
    (ht : wc[i]?.bind predMatchTy = some t)
    (hafter : ∀ p ∈ wc.drop (i + 1), predMatchTy p = none) :
    wc.foldl scalarStep acc = some t := by
  induction wc generalizing acc i with
  | nil => simp at ht
  | cons p ps ih =>
    cases i with
    | zero =>
      simp only [List.getElem?_cons_zero, Option.some_bind] at ht
      have hstep : scalarStep acc p = some t := by
        cases p with
        | typeP ty bounds =>
          simp only [predMatchTy] at ht
          by_cases hc : (has_scalar bounds).getD false = true
          · rw [if_pos hc] at ht
            simp only [scalarStep]
            rw [if_pos hc]
            exact ht
          · rw [if_neg hc] at ht
            exact absurd ht (by simp)
        | lifetimeP n => simp [predMatchTy] at ht
      rw [List.foldl_cons, hstep]
      refine foldl_scalarStep_no_match ps (some t) ?_
      intro q hq
      exact hafter q (by simpa using hq)
    | succ j =>
      rw [List.foldl_cons]
      refine ih j (scalarStep acc p) (by simpa using ht) ?_
      intro q hq
      exact hafter q (by simpa using hq)

/-- The characteristic `scalar_type` result of one matched position with no
later match: the capture equals that position's bounded type. -/
theorem scalarTypeScan_last (wc : List WherePredicate) (i : Nat) (t : Ty)
    (ht : wc[i]?.bind predMatchTy = some t)
    (hafter : ∀ p ∈ wc.drop (i + 1), predMatchTy p = none) :
    scalarTypeScan wc = some t :=
  foldl_scalarStep_last wc i t none ht hafter

theorem bcOpImpls_eq (ast : DeriveInput) (op : String) (wc : List WherePredicate)
    (comps : List ComponentCase)
    (hwc : ast.generics.where_clause = some wc)
    (hcomps : create_components_iter ast = some comps) :
    bcOpImpls ast op = some
      [Impl.valueI op (to_lowercase op)
          (match scalarTypeScan wc with
            | some t => Operand.scalarTy t
            | none => Operand.unfilled)
          (generics ast) (augmentValueClause op wc)
          (comps.map (bcValueEntry op (to_lowercase op))),
        Impl.assignI (op ++ "Assign") ((to_lowercase op) ++ "_assign")
          (match scalarTypeScan wc with
            | some t => Operand.scalarTy t
            | none => Operand.unfilled)
          (generics ast) (augmentAssignClause op wc)
          (comps.filterMap (bcAssignEntry (op ++ "Assign") ((to_lowercase op) ++ "_assign")))] := by
  simp [bcOpImpls, hwc, hcomps]

theorem cwOpImpls_eq (ast : DeriveInput) (op : String) (wc : List WherePredicate)
    (comps : List ComponentCase)
    (hwc : ast.generics.where_clause = some wc)
    (hcomps : create_components_iter ast = some comps) :
    cwOpImpls ast op = some
      [Impl.valueI op (to_lowercase op) Operand.selfTy
          (generics ast) (augmentValueClause op wc)
          (comps.map (cwValueEntry op (to_lowercase op))),
        Impl.assignI (op ++ "Assign") ((to_lowercase op) ++ "_assign") Operand.selfTy
          (generics ast) (augmentAssignClause op wc)
          (comps.filterMap (cwAssignEntry (op ++ "Assign") ((to_lowercase op) ++ "_assign")))] := by
  simp [cwOpImpls, hwc, hcomps]

theorem bcOpImpls_operand (ast : DeriveInput) (op : String) (wc : List WherePredicate)
    (l : List Impl) (impl : Impl)
    (hwc : ast.generics.where_clause = some wc)
    (hl : bcOpImpls ast op = some l) (hmem : impl ∈ l) :
    impl.operand =
      (match scalarTypeScan wc with
        | some t => Operand.scalarTy t
        | none => Operand.unfilled) := by
  cases hc : create_components_iter ast with
  | none =>
    rw [show bcOpImpls ast op = none by simp [bcOpImpls, hwc, hc]] at hl
    exact absurd hl (by simp)
  | some comps =>
    rw [bcOpImpls_eq ast op wc comps hwc hc] at hl
    cases hl
    simp only [List.mem_cons, List.not_mem_nil, or_false] at hmem
    rcases hmem with h | h <;> subst h <;> rfl

/-- C3: in broadcast mode, when the predicate at scan position `i` matches the
scalar-capability marker with bounded type `t` and no predicate after position
`i` matches, every implementation emitted by `bc_ops` — value and assignment,
for every requested operator — uses `t` as its operand type: earlier matches
are overwritten by the last one in scan order. -/
theorem C3_theorem (ast : DeriveInput) (ops : List String) (wc : List WherePredicate)
    (t : Ty) (i : Nat) (impls : List Impl)
    (hwc : ast.generics.where_clause = some wc)
    (ht : wc[i]?.bind predMatchTy = some t)
    (hafter : ∀ p ∈ wc.drop (i + 1), predMatchTy p = none)
    (h : bc_ops ast ops = some impls) :
    ∀ impl ∈ impls, impl.operand = Operand.scalarTy t := by
  have hscan : scalarTypeScan wc = some t := scalarTypeScan_last wc i t ht hafter
  induction ops generalizing impls with
  | nil =>
    simp only [bc_ops] at h
    cases h
    intro impl hmem
    exact absurd hmem (List.not_mem_nil impl)
  | cons o os ih =>
    cases hh : bcOpImpls ast o with
    | none =>
      simp [bc_ops, hh] at h
    | some head =>
      cases htail : bc_ops ast os with
      | none =>
        simp [bc_ops, hh, htail] at h
      | some tail =>
        simp [bc_ops, hh, htail] at h
        subst h
        intro impl hmem
        rcases List.mem_append.mp hmem with hmem | hmem
        · have := bcOpImpls_operand ast o wc head impl hwc hh hmem
          rw [this, hscan]
        · exact ih tail htail impl hmem

/-- Scalar-capability marker bound `Scalar`. -/
def scalarB : TypeParamBound := .traitB ["Scalar"] none

/-- Bounded type `T`. -/
def tyT : Ty := ⟨"T"⟩

/-- Bounded type `U`. -/
def tyU : Ty := ⟨"U"⟩

/-- Declaration `struct PairTU<T, U> where T: Scalar, U: Scalar { x: T, y: U }`:
two generic parameters carry the marker. -/
def c3Ast : DeriveInput :=
  { ident := "PairTU"
    generics :=
      { params := [.typeParam "T" [] none, .typeParam "U" [] none]
        where_clause := some [.typeP tyT [scalarB], .typeP tyU [scalarB]] }
    data := .structD (.named [⟨some "x", []⟩, ⟨some "y", []⟩]) }

/-- The impls `bc_ops` emits for `c3Ast` and operator `Add`. -/
def c3Impls : List Impl := (bc_ops c3Ast ["Add"]).getD []

/-- C3 witness: on a declaration where both `T` (position 0) and `U`
(position 1) match, both emitted impls use the later match `U` as operand. -/
theorem C3_witness :
    bc_ops c3Ast ["Add"] = some c3Impls ∧
    (c3Impls.get ⟨0, by decide⟩).operand = Operand.scalarTy tyU ∧
    (c3Impls.get ⟨1, by decide⟩).operand = Operand.scalarTy tyU :=
  ⟨by decide,
    C3_theorem c3Ast ["Add"]
      [.typeP tyT [scalarB], .typeP tyU [scalarB]] tyU 1 c3Impls rfl
      (by decide) (by decide) (by decide) _ (List.get_mem c3Impls 0 (by decide)),
    C3_theorem c3Ast ["Add"]
      [.typeP tyT [scalarB], .typeP tyU [scalarB]] tyU 1 c3Impls rfl
      (by decide) (by decide) (by decide) _ (List.get_mem c3Impls 1 (by decide))⟩

theorem assign_suffix_inj {o1 o2 : String} (h : o1 ++ "Assign" = o2 ++ "Assign") :
    o1 = o2 := by
  have hd : o1.data ++ "Assign".data = o2.data ++ "Assign".data := by
    have := congrArg String.data h
    simpa [String.data_append] using this
  exact String.ext (List.append_cancel_right hd)

/-- The bounds appended for operator `o1` differ from both bounds appended for
a different operator `o2`. -/
theorem appended_bound_ne (o1 o2 : String) (t t2 : Ty) (hne : o1 ≠ o2) :
    valueBoundOf o1 t ≠ valueBoundOf o2 t2 ∧
    valueBoundOf o1 t ≠ assignBoundOf o2 ∧
    assignBoundOf o1 ≠ valueBoundOf o2 t2 ∧
    assignBoundOf o1 ≠ assignBoundOf o2 := by
  refine ⟨?_, ?_, ?_, ?_⟩ <;>
    intro h <;>
    simp only [valueBoundOf, assignBoundOf, TypeParamBound.traitB.injEq,
      List.cons.injEq, and_true, true_and] at h
  · exact hne h.1
  · exact Option.noConfusion h.2
  · exact Option.noConfusion h.2
  · exact hne (assign_suffix_inj h)

/-- C5: augmentation is per-operator independent.  If the bounds appended for
operator `o1` (its value bound on `t` and its assignment bound) do not occur
in the original constraint set, then they occur in neither of the constraint
sets augmented for a different operator `o2`: a bound appended for one
operator never leaks into another operator's augmented sets, which are each
derived from a fresh clone of the original. -/
theorem C5_theorem (o1 o2 : String) (t : Ty) (wc : List WherePredicate)
    (hne : o1 ≠ o2)
    (hv : ∀ p ∈ wc, valueBoundOf o1 t ∉ predBounds p)
    (ha : ∀ p ∈ wc, assignBoundOf o1 ∉ predBounds p) :
    (∀ p ∈ augmentValueClause o2 wc,
      valueBoundOf o1 t ∉ predBounds p ∧ assignBoundOf o1 ∉ predBounds p) ∧
    (∀ p ∈ augmentAssignClause o2 wc,
      valueBoundOf o1 t ∉ predBounds p ∧ assignBoundOf o1 ∉ predBounds p) := by
  constructor
  · intro p hp
    rcases List.mem_map.mp hp with ⟨q, hq, rfl⟩
    have hv' := hv _ hq
    have ha' := ha _ hq
    cases q with
    | typeP ty bounds =>
      simp only [predBounds] at hv' ha'
      by_cases hc : (has_scalar bounds).getD false = true
      · simp only [augmentValuePred, if_pos hc, predBounds]
        constructor
        · intro hmem
          rcases List.mem_append.mp hmem with hmem | hmem
          · exact hv' hmem
          · exact (appended_bound_ne o1 o2 t ty hne).1 (by simpa using hmem)
        · intro hmem
          rcases List.mem_append.mp hmem with hmem | hmem
          · exact ha' hmem
          · exact (appended_bound_ne o1 o2 t ty hne).2.2.1 (by simpa using hmem)
      · simp only [augmentValuePred, if_neg hc, predBounds]
        exact ⟨hv', ha'⟩
    | lifetimeP n =>
      simp only [augmentValuePred]
      exact ⟨hv', ha'⟩
  · intro p hp
    rcases List.mem_map.mp hp with ⟨q, hq, rfl⟩
    have hv' := hv _ hq
    have ha' := ha _ hq
    cases q with
    | typeP ty bounds =>
      simp only [predBounds] at hv' ha'
      by_cases hc : (has_scalar bounds).getD false = true
      · simp only [augmentAssignPred, if_pos hc, predBounds]
        constructor
        · intro hmem
          rcases List.mem_append.mp hmem with hmem | hmem
          · exact hv' hmem
          · exact (appended_bound_ne o1 o2 t t hne).2.1 (by simpa using hmem)
        · intro hmem
          rcases List.mem_append.mp hmem with hmem | hmem
          · exact ha' hmem
          · exact (appended_bound_ne o1 o2 t t hne).2.2.2 (by simpa using hmem)
      · simp only [augmentAssignPred, if_neg hc, predBounds]
        exact ⟨hv', ha'⟩
    | lifetimeP n =>
      simp only [augmentAssignPred]
      exact ⟨hv', ha'⟩

/-- The predicate `T: Scalar + std::ops::Sub<Output = T>` produced by value
augmentation of `where T: Scalar` for operator `Sub`. -/
def c5AugPredV : WherePredicate := .typeP tyT [scalarB, valueBoundOf "Sub" tyT]

/-- C5 witness: the bounds appended for `Add` are absent from the predicate of
the `Sub`-augmented value set over `where T: Scalar`. -/
theorem C5_witness :
    valueBoundOf "Add" tyT ∉ predBounds c5AugPredV ∧
    assignBoundOf "Add" ∉ predBounds c5AugPredV :=
  (C5_theorem ("Add") ("Sub") tyT [.typeP tyT [scalarB]] (by decide) (by decide)
      (by decide)).1 c5AugPredV (by decide)

theorem predMatchTy_eq_none {p : WherePredicate} (h : predicateMatches p = false) :
    predMatchTy p = none := by
  cases p with
  | typeP ty bounds =>
    simp only [predicateMatches] at h
    simp [predMatchTy, h]
  | lifetimeP n => rfl

theorem bc_ops_isSome (ast : DeriveInput) (wc : List WherePredicate)
    (comps : List ComponentCase)
    (hwc : ast.generics.where_clause = some wc)
    (hcomps : create_components_iter ast = some comps) :
    ∀ ops : List String, (bc_ops ast ops).isSome = true := by
  intro ops
  induction ops with
  | nil => rfl
  | cons o os ih =>
    cases htail : bc_ops ast os with
    | none => simp [htail] at ih
    | some tail =>
      simp [bc_ops, bcOpImpls_eq ast o wc comps hwc hcomps, htail]

theorem cw_ops_isSome (ast : DeriveInput) (wc : List WherePredicate)
    (comps : List ComponentCase)
    (hwc : ast.generics.where_clause = some wc)
    (hcomps : create_components_iter ast = some comps) :
    ∀ ops : List String, (cw_ops ast ops).isSome = true := by
  intro ops
  induction ops with
  | nil => rfl
  | cons o os ih =>
    cases htail : cw_ops ast os with
    | none => simp [htail] at ih
    | some tail =>
      simp [cw_ops, cwOpImpls_eq ast o wc comps hwc hcomps, htail]

theorem bc_ops_operand (ast : DeriveInput) (ops : List String)
    (wc : List WherePredicate) (impls : List Impl)
    (hwc : ast.generics.where_clause = some wc)
    (h : bc_ops ast ops = some impls) :
    ∀ impl ∈ impls, impl.operand =
      (match scalarTypeScan wc with
        | some t => Operand.scalarTy t
        | none => Operand.unfilled) := by
  induction ops generalizing impls with
  | nil =>
    simp only [bc_ops] at h
    cases h
    intro impl hmem
    exact absurd hmem (List.not_mem_nil impl)
  | cons o os ih =>
    cases hh : bcOpImpls ast o with
    | none => simp [bc_ops, hh] at h
    | some head =>
      cases htail : bc_ops ast os with
      | none => simp [bc_ops, hh, htail] at h
      | some tail =>
        simp [bc_ops, hh, htail] at h
        subst h
        intro impl hmem
        rcases List.mem_append.mp hmem with hm | hm
        · exact bcOpImpls_operand ast o wc head impl hwc hh hm
        · exact ih tail htail impl hm

/-- C6: in broadcast mode with zero predicates matching the scalar-capability
marker, generation still completes (no panic), and the operand-type position
of every emitted implementation — value and assignment, for every requested
operator — is left unfilled. -/
theorem C6_theorem (ast : DeriveInput) (ops : List String)
    (wc : List WherePredicate) (comps : List ComponentCase)
    (hwc : ast.generics.where_clause = some wc)
    (hcomps : create_components_iter ast = some comps)
    (hnone : ∀ p ∈ wc, predicateMatches p = false) :
    (bc_ops ast ops).isSome = true ∧
    ∀ impl ∈ (bc_ops ast ops).getD [], impl.operand = Operand.unfilled := by
  have hsome := bc_ops_isSome ast wc comps hwc hcomps ops
  refine ⟨hsome, ?_⟩
  intro impl hmem
  cases h : bc_ops ast ops with
  | none => rw [h] at hsome; exact absurd hsome (by simp)
  | some impls =>
    rw [h] at hmem
    simp only [Option.getD_some] at hmem
    have hop := bc_ops_operand ast ops wc impls hwc h impl hmem
    have hscan : scalarTypeScan wc = none :=
      foldl_scalarStep_no_match wc none fun p hp => predMatchTy_eq_none (hnone p hp)
    rw [hop, hscan]

/-- Declaration `struct Wrap<T> where T: Clone { x: T }`: no predicate carries
the scalar-capability marker. -/
def c6Ast : DeriveInput :=
  { ident := "Wrap"
    generics :=
      { params := [.typeParam "T" [] none]
        where_clause := some [.typeP tyT [.traitB ["Clone"] none]] }
    data := .structD (.named [⟨some "x", []⟩]) }

/-- C6 witness: with zero matching predicates, `bc_ops` still yields both
impls for `Add`, and each has an unfilled operand position. -/
theorem C6_witness :
    (bc_ops c6Ast ["Add"]).isSome = true ∧
    (((bc_ops c6Ast ["Add"]).getD []).get ⟨0, by decide⟩).operand = Operand.unfilled ∧
    (((bc_ops c6Ast ["Add"]).getD []).get ⟨1, by decide⟩).operand = Operand.unfilled :=
  ⟨(C6_theorem c6Ast ["Add"] [.typeP tyT [.traitB ["Clone"] none]]
        [.operate (.namedI "x")] rfl rfl (by decide)).1,
    (C6_theorem c6Ast ["Add"] [.typeP tyT [.traitB ["Clone"] none]]
        [.operate (.namedI "x")] rfl rfl (by decide)).2 _
      (List.get_mem _ 0 (by decide)),
    (C6_theorem c6Ast ["Add"] [.typeP tyT [.traitB ["Clone"] none]]
        [.operate (.namedI "x")] rfl rfl (by decide)).2 _
      (List.get_mem _ 1 (by decide))⟩

/-- C9: when the declaration's generics carry no where-clause, all four
entry points panic (modelled as `none`) — the `unwrap` of the cloned
where-clause runs before anything is emitted, for the first operator of each
(non-empty) family. -/
theorem C9_theorem (ast : DeriveInput) (h : ast.generics.where_clause = none) :
    bc_bitops ast = none ∧ bc_arithmetic ast = none ∧
    cw_bitops ast = none ∧ cw_arithmetic ast = none := by
  have hbc : ∀ (op : String) (ops : List String), bc_ops ast (op :: ops) = none := by
    intro op ops
    simp [bc_ops, bcOpImpls, h]
  have hcw : ∀ (op : String) (ops : List String), cw_ops ast (op :: ops) = none := by
    intro op ops
    simp [cw_ops, cwOpImpls, h]
  exact ⟨hbc _ _, hbc _ _, hcw _ _, hcw _ _⟩

/-- Declaration `struct NoWhere<T: Scalar> { x: T }`: a struct whose generics
have no where-clause (the marker sits inline on the parameter, which the
generator never scans). -/
def c9Ast : DeriveInput :=
  { ident := "NoWhere"
    generics := { params := [.typeParam "T" [scalarB] none], where_clause := none }
    data := .structD (.named [⟨some "x", []⟩]) }

/-- C9 witness: the concrete where-clause-free struct panics in all four
entry points. -/
theorem C9_witness :
    bc_bitops c9Ast = none ∧ bc_arithmetic c9Ast = none ∧
    cw_bitops c9Ast = none ∧ cw_arithmetic c9Ast = none :=
  C9_theorem c9Ast rfl

/-- The replacement carried by a component, when it is an override. -/
def ComponentCase.replacementOf : ComponentCase → Option Replacement
  | .operate _ => none
  | .overrideC _ r => some r

theorem componentsFrom_length (idx : Nat) (fields : List FieldDecl) :
    (componentsFrom idx fields).length = fields.length := by
  induction fields generalizing idx with
  | nil => rfl
  | cons f fs ih => simp [componentsFrom, ih]

theorem componentNext_snd_ident (idx : Nat) (f g : FieldDecl)
    (h : f.ident = g.ident) :
    (componentNext idx f).2 = (componentNext idx g).2 := by
  cases hf : f.ident <;>
    cases hfind : f.attrs.find? (fun a => a.name == "op_override") <;>
    cases hgind : g.attrs.find? (fun a => a.name == "op_override") <;>
    simp [componentNext, hf, ← h, hf, hfind, hgind]

theorem componentsFrom_replacement (fields : List FieldDecl) (idx k : Nat)
    (f : FieldDecl) (hf : fields[k]? = some f) :
    ((componentsFrom idx fields)[k]?).bind ComponentCase.replacementOf =
      (f.attrs.find? (fun a => a.name == "op_override")).map
        (fun a => overrideReplacement a.arg) := by
  induction fields generalizing idx k with
  | nil => simp at hf
  | cons f0 fs ih =>
    cases k with
    | zero =>
      simp only [List.getElem?_cons_zero, Option.some.injEq] at hf
      subst hf
      cases hid : f0.ident <;>
        cases hfind : f0.attrs.find? (fun a => a.name == "op_override") <;>
        simp [componentsFrom, componentNext, hid, hfind, ComponentCase.replacementOf]
    | succ j =>
      simp only [List.getElem?_cons_succ] at hf
      simp only [componentsFrom, List.getElem?_cons_succ]
      exact ih ((componentNext idx f0).2) j hf

theorem componentsFrom_set (fields : List FieldDecl) (idx k : Nat) (f2 : FieldDecl)
    (hid : (fields[k]?).map FieldDecl.ident = some f2.ident) :
    ∀ j, j ≠ k →
      (componentsFrom idx (fields.set k f2))[j]? = (componentsFrom idx fields)[j]? := by
  induction fields generalizing idx k with
  | nil => intro j hj; rfl
  | cons f0 fs ih =>
    cases k with
    | zero =>
      simp only [List.getElem?_cons_zero, Option.map_some', Option.some.injEq] at hid
      intro j hj
      cases j with
      | zero => exact absurd rfl hj
      | succ j =>
        simp only [List.set_cons_zero, componentsFrom, List.getElem?_cons_succ]
        rw [componentNext_snd_ident idx f2 f0 hid.symm]
    | succ k =>
      simp only [List.getElem?_cons_succ] at hid
      intro j hj
      cases j with
      | zero => simp [List.set_cons_succ, componentsFrom]
      | succ j =>
        simp only [List.set_cons_succ, componentsFrom, List.getElem?_cons_succ]
        exact ih ((componentNext idx f0).2) k hid j (fun hc => hj (by rw [hc]))

/-- C7: an `op_override` whose string literal fails to parse does not abort
generation — all four entry points still complete; the field is classified
Override with a deferred compile-error expression that carries the original
parse diagnostic anchored at the annotation's literal; and replacing that one
field (keeping its identifier) leaves every other field's component
unchanged. -/
theorem C7_theorem (ast : DeriveInput) (wc : List WherePredicate)
    (fields : List FieldDecl) (k : Nat) (f f2 : FieldDecl) (a : Attr)
    (raw diag : String)
    (hwc : ast.generics.where_clause = some wc)
    (hcomps : create_components_iter ast = some (componentsFrom 0 fields))
    (hf : fields[k]? = some f)
    (hfind : f.attrs.find? (fun a => a.name == "op_override") = some a)
    (harg : a.arg = OverrideArg.litStr raw (ParseOutcome.err diag))
    (hid : f2.ident = f.ident) :
    (bc_bitops ast).isSome = true ∧ (bc_arithmetic ast).isSome = true ∧
    (cw_bitops ast).isSome = true ∧ (cw_arithmetic ast).isSome = true ∧
    ((componentsFrom 0 fields)[k]?).bind ComponentCase.replacementOf =
      some (Replacement.compileErr diag raw) ∧
    ∀ j, j ≠ k →
      (componentsFrom 0 (fields.set k f2))[j]? = (componentsFrom 0 fields)[j]? := by
  refine ⟨bc_ops_isSome ast wc _ hwc hcomps _, bc_ops_isSome ast wc _ hwc hcomps _,
    cw_ops_isSome ast wc _ hwc hcomps _, cw_ops_isSome ast wc _ hwc hcomps _, ?_, ?_⟩
  · rw [componentsFrom_replacement fields 0 k f hf, hfind]
    simp [harg, overrideReplacement]
  · exact componentsFrom_set fields 0 k f2 (by rw [hf, Option.map_some', hid])

/-- The override field of the C7 witness: its literal `"1 +"` fails to parse
with diagnostic `unexpected end of input`. -/
def c7BadField : FieldDecl :=
  ⟨some "x", [⟨"op_override", .litStr "1 +" (.err "unexpected end of input")⟩]⟩

/-- The same field with a parsing literal, used to compare outputs. -/
def c7GoodField : FieldDecl :=
  ⟨some "x", [⟨"op_override", .litStr "1" (.ok "1")⟩]⟩

/-- Declaration `struct Two<T> where T: Scalar { #[op_override("1 +")] x: T, y: T }`. -/
def c7Ast : DeriveInput :=
  { ident := "Two"
    generics :=
      { params := [.typeParam "T" [] none]
        where_clause := some [.typeP tyT [scalarB]] }
    data := .structD (.named [c7BadField, ⟨some "y", []⟩]) }

/-- C7 witness: the concrete bad-literal declaration completes in all four
entry points, field `x` is classified Override with the deferred error
anchored at `"1 +"`, and swapping `x`'s annotation to a parsing one leaves
field `y`'s component unchanged. -/
theorem C7_witness :
    (bc_bitops c7Ast).isSome = true ∧ (bc_arithmetic c7Ast).isSome = true ∧
    (cw_bitops c7Ast).isSome = true ∧ (cw_arithmetic c7Ast).isSome = true ∧
    ((componentsFrom 0 [c7BadField, ⟨some "y", []⟩])[0]?).bind
        ComponentCase.replacementOf =
      some (Replacement.compileErr "unexpected end of input" "1 +") ∧
    (componentsFrom 0 ([c7BadField, ⟨some "y", []⟩].set 0 c7GoodField))[1]? =
      (componentsFrom 0 [c7BadField, ⟨some "y", []⟩])[1]? := by
  have H := C7_theorem c7Ast [.typeP tyT [scalarB]] [c7BadField, ⟨some "y", []⟩] 0
    c7BadField c7GoodField ⟨"op_override", .litStr "1 +" (.err "unexpected end of input")⟩
    "1 +" "unexpected end of input" rfl rfl (by decide) (by decide) rfl (by decide)
  exact ⟨H.1, H.2.1, H.2.2.1, H.2.2.2.1, H.2.2.2.2.1, H.2.2.2.2.2 1 (by decide)⟩

/-- C10: an `op_override` argument that is a non-string literal or a
non-literal expression classifies the field Override with an
`Expected string literal` compile error spanned to that argument; generation
completes in all four entry points, and indeed no shape of the annotation's
argument can make generation abort (the last conjunct quantifies the
completion over every possible argument shape at that field). -/
theorem C10_theorem (ast : DeriveInput) (wc : List WherePredicate)
    (fields : List FieldDecl) (k : Nat) (f : FieldDecl) (a : Attr) (tok : String)
    (hwc : ast.generics.where_clause = some wc)
    (hdata : ast.data = Data.structD (StructFields.named fields))
    (hf : fields[k]? = some f)
    (hfind : f.attrs.find? (fun a => a.name == "op_override") = some a)
    (harg : a.arg = OverrideArg.litOther tok ∨ a.arg = OverrideArg.nonLit tok) :
    ((componentsFrom 0 fields)[k]?).bind ComponentCase.replacementOf =
      some (Replacement.compileErr "Expected string literal" tok) ∧
    (bc_bitops ast).isSome = true ∧ (bc_arithmetic ast).isSome = true ∧
    (cw_bitops ast).isSome = true ∧ (cw_arithmetic ast).isSome = true ∧
    ∀ arg : OverrideArg,
      (bc_bitops { ast with
        data := Data.structD (StructFields.named
          (fields.set k ⟨f.ident, [⟨"op_override", arg⟩]⟩)) }).isSome = true := by
  have hcomps : create_components_iter ast = some (componentsFrom 0 fields) := by
    simp [create_components_iter, hdata]
  refine ⟨?_, bc_ops_isSome ast wc _ hwc hcomps _, bc_ops_isSome ast wc _ hwc hcomps _,
    cw_ops_isSome ast wc _ hwc hcomps _, cw_ops_isSome ast wc _ hwc hcomps _, ?_⟩
  · rw [componentsFrom_replacement fields 0 k f hf, hfind]
    rcases harg with h | h <;> simp [h, overrideReplacement]
  · intro arg
    exact bc_ops_isSome
      { ast with
        data := Data.structD (StructFields.named
          (fields.set k ⟨f.ident, [⟨"op_override", arg⟩]⟩)) }
      wc (componentsFrom 0 (fields.set k ⟨f.ident, [⟨"op_override", arg⟩]⟩))
      hwc rfl _

/-- The field `#[op_override(1)] x` of the C10 witness: the argument is an
integer literal, not a string literal. -/
def c10Field : FieldDecl := ⟨some "x", [⟨"op_override", .litOther "1"⟩]⟩

/-- Declaration `struct One<T> where T: Scalar { #[op_override(1)] x: T }`. -/
def c10Ast : DeriveInput :=
  { ident := "One"
    generics :=
      { params := [.typeParam "T" [] none]
        where_clause := some [.typeP tyT [scalarB]] }
    data := .structD (.named [c10Field]) }

/-- C10 witness: the integer-literal annotation yields the deferred
`Expected string literal` error spanned to `1`, all four entry points
complete, and even swapping in an args-parse-failure shape keeps generation
completing. -/
theorem C10_witness :
    ((componentsFrom 0 [c10Field])[0]?).bind ComponentCase.replacementOf =
      some (Replacement.compileErr "Expected string literal" "1") ∧
    (bc_bitops c10Ast).isSome = true ∧ (bc_arithmetic c10Ast).isSome = true ∧
    (cw_bitops c10Ast).isSome = true ∧ (cw_arithmetic c10Ast).isSome = true ∧
    (bc_bitops { c10Ast with
      data := Data.structD (StructFields.named
        ([c10Field].set 0 ⟨c10Field.ident, [⟨"op_override", .argsErr "bad args"⟩]⟩)) }).isSome
      = true := by
  have H := C10_theorem c10Ast [.typeP tyT [scalarB]] [c10Field] 0 c10Field
    ⟨"op_override", .litOther "1"⟩ "1" rfl rfl (by decide) (by decide) (Or.inl rfl)
  exact ⟨H.1, H.2.1, H.2.2.1, H.2.2.2.1, H.2.2.2.2.1,
    H.2.2.2.2.2 (.argsErr "bad args")⟩

theorem bcAssignEntry_field (tn fn : String) (comps : List ComponentCase)
    (i : FieldIdent) (hnotop : ∀ c ∈ comps, c ≠ ComponentCase.operate i) :
    ∀ s ∈ comps.filterMap (bcAssignEntry tn fn), s.field ≠ i := by
  intro s hs
  rcases List.mem_filterMap.mp hs with ⟨c, hc, he⟩
  cases c with
  | operate j =>
    simp only [bcAssignEntry, Option.some.injEq] at he
    subst he
    intro hfield
    simp only [AssignStmt.field] at hfield
    subst hfield
    exact hnotop _ hc rfl
  | overrideC j r => simp [bcAssignEntry] at he

theorem cwAssignEntry_field (tn fn : String) (comps : List ComponentCase)
    (i : FieldIdent) (hnotop : ∀ c ∈ comps, c ≠ ComponentCase.operate i) :
    ∀ s ∈ comps.filterMap (cwAssignEntry tn fn), s.field ≠ i := by
  intro s hs
  rcases List.mem_filterMap.mp hs with ⟨c, hc, he⟩
  cases c with
  | operate j =>
    simp only [cwAssignEntry, Option.some.injEq] at he
    subst he
    intro hfield
    simp only [AssignStmt.field] at hfield
    subst hfield
    exact hnotop _ hc rfl
  | overrideC j r => simp [cwAssignEntry] at he

/-- C4: a field classified Override contributes to the value implementation
exactly its replacement expression — at the field's own position, referencing
neither operand — and contributes no statement at all to the assignment
implementation, for every requested operator and in both modes. -/
theorem C4_theorem (ast : DeriveInput) (op : String) (wc : List WherePredicate)
    (comps : List ComponentCase) (k : Nat) (i : FieldIdent) (r : Replacement)
    (hwc : ast.generics.where_clause = some wc)
    (hcomps : create_components_iter ast = some comps)
    (hov : comps[k]? = some (ComponentCase.overrideC i r))
    (hnotop : ∀ c ∈ comps, c ≠ ComponentCase.operate i) :
    ∃ o vB aB vB2 aB2,
      bc_ops ast [op] = some
        [Impl.valueI op (to_lowercase op) o (generics ast)
            (augmentValueClause op wc) vB,
          Impl.assignI (op ++ "Assign") (to_lowercase op ++ "_assign") o
            (generics ast) (augmentAssignClause op wc) aB] ∧
      cw_ops ast [op] = some
        [Impl.valueI op (to_lowercase op) Operand.selfTy (generics ast)
            (augmentValueClause op wc) vB2,
          Impl.assignI (op ++ "Assign") (to_lowercase op ++ "_assign") Operand.selfTy
            (generics ast) (augmentAssignClause op wc) aB2] ∧
      vB[k]? = some (i, ValueExpr.replacementE r) ∧
      vB2[k]? = some (i, ValueExpr.replacementE r) ∧
      (ValueExpr.replacementE r).referencesOperands = false ∧
      (∀ s ∈ aB, AssignStmt.field s ≠ i) ∧
      (∀ s ∈ aB2, AssignStmt.field s ≠ i) := by
  refine ⟨(match scalarTypeScan wc with
      | some t => Operand.scalarTy t
      | none => Operand.unfilled),
    comps.map (bcValueEntry op (to_lowercase op)),
    comps.filterMap (bcAssignEntry (op ++ "Assign") (to_lowercase op ++ "_assign")),
    comps.map (cwValueEntry op (to_lowercase op)),
    comps.filterMap (cwAssignEntry (op ++ "Assign") (to_lowercase op ++ "_assign")),
    ?_, ?_, ?_, ?_, rfl, ?_, ?_⟩
  · simp [bc_ops, bcOpImpls_eq ast op wc comps hwc hcomps]
  · simp [cw_ops, cwOpImpls_eq ast op wc comps hwc hcomps]
  · simp [List.getElem?_map, hov, bcValueEntry]
  · simp [List.getElem?_map, hov, cwValueEntry]
  · exact bcAssignEntry_field _ _ comps i hnotop
  · exact cwAssignEntry_field _ _ comps i hnotop

/-- Declaration `struct PtW<T> where T: Scalar { #[op_override("1")] w: T, x: T }`. -/
def c4Ast : DeriveInput :=
  { ident := "PtW"
    generics :=
      { params := [.typeParam "T" [] none]
        where_clause := some [.typeP tyT [scalarB]] }
    data := .structD (.named
      [⟨some "w", [⟨"op_override", .litStr "1" (.ok "1")⟩]⟩, ⟨some "x", []⟩]) }

/-- C4 witness: on the concrete overridden declaration and operator `Add`,
the override field's value entry is its replacement and no assignment
statement touches it, in both modes. -/
theorem C4_witness :
    ∃ o vB aB vB2 aB2,
      bc_ops c4Ast ["Add"] = some
        [Impl.valueI "Add" (to_lowercase "Add") o (generics c4Ast)
            (augmentValueClause "Add" [.typeP tyT [scalarB]]) vB,
          Impl.assignI ("Add" ++ "Assign") (to_lowercase "Add" ++ "_assign") o
            (generics c4Ast) (augmentAssignClause "Add" [.typeP tyT [scalarB]]) aB] ∧
      cw_ops c4Ast ["Add"] = some
        [Impl.valueI "Add" (to_lowercase "Add") Operand.selfTy (generics c4Ast)
            (augmentValueClause "Add" [.typeP tyT [scalarB]]) vB2,
          Impl.assignI ("Add" ++ "Assign") (to_lowercase "Add" ++ "_assign")
            Operand.selfTy (generics c4Ast)
            (augmentAssignClause "Add" [.typeP tyT [scalarB]]) aB2] ∧
      vB[0]? = some (FieldIdent.namedI "w",
        ValueExpr.replacementE (Replacement.parsedTokens "1")) ∧
      vB2[0]? = some (FieldIdent.namedI "w",
        ValueExpr.replacementE (Replacement.parsedTokens "1")) ∧
      (ValueExpr.replacementE (Replacement.parsedTokens "1")).referencesOperands
        = false ∧
      (∀ s ∈ aB, AssignStmt.field s ≠ FieldIdent.namedI "w") ∧
      (∀ s ∈ aB2, AssignStmt.field s ≠ FieldIdent.namedI "w") :=
  C4_theorem c4Ast "Add" [.typeP tyT [scalarB]]
    [.overrideC (.namedI "w") (.parsedTokens "1"), .operate (.namedI "x")] 0
    (.namedI "w") (.parsedTokens "1") rfl (by decide) (by decide) (by decide)

/-- The constructor body of a value implementation. -/
def Impl.valueBody : Impl → Option (List (FieldIdent × ValueExpr))
  | .valueI _ _ _ _ _ body => some body
  | .assignI _ _ _ _ _ _ => none

theorem bcValueEntry_fst (tn fn : String) (c : ComponentCase) :
    (bcValueEntry tn fn c).1 = c.ident := by
  cases c <;> rfl

theorem cwValueEntry_fst (tn fn : String) (c : ComponentCase) :
    (cwValueEntry tn fn c).1 = c.ident := by
  cases c <;> rfl

theorem componentNext_snd_unnamed (idx : Nat) (f : FieldDecl)
    (h : f.ident = none) : (componentNext idx f).2 = idx + 1 := by
  cases hfind : f.attrs.find? (fun a => a.name == "op_override") <;>
    simp [componentNext, h, hfind]

theorem componentsFrom_ident_named (fields : List FieldDecl) (idx j : Nat)
    (f : FieldDecl) (s : String) (hf : fields[j]? = some f)
    (hs : f.ident = some s) :
    ((componentsFrom idx fields)[j]?).map ComponentCase.ident =
      some (FieldIdent.namedI s) := by
  induction fields generalizing idx j with
  | nil => simp at hf
  | cons f0 fs ih =>
    cases j with
    | zero =>
      simp only [List.getElem?_cons_zero, Option.some.injEq] at hf
      subst hf
      cases hfind : f0.attrs.find? (fun a => a.name == "op_override") <;>
        simp [componentsFrom, componentNext, hs, hfind, ComponentCase.ident]
    | succ j =>
      simp only [List.getElem?_cons_succ] at hf
      simp only [componentsFrom, List.getElem?_cons_succ]
      exact ih ((componentNext idx f0).2) j hf

theorem componentsFrom_ident_unnamed (fields : List FieldDecl) (idx j : Nat)
    (hall : ∀ f ∈ fields, f.ident = none) (hj : j < fields.length) :
    ((componentsFrom idx fields)[j]?).map ComponentCase.ident =
      some (FieldIdent.indexI (idx + j)) := by
  induction fields generalizing idx j with
  | nil => simp at hj
  | cons f0 fs ih =>
    have h0 := hall f0 (List.mem_cons_self f0 fs)
    cases j with
    | zero =>
      cases hfind : f0.attrs.find? (fun a => a.name == "op_override") <;>
        simp [componentsFrom, componentNext, h0, hfind, ComponentCase.ident]
    | succ j =>
      simp only [componentsFrom, List.getElem?_cons_succ]
      rw [componentNext_snd_unnamed idx f0 h0]
      rw [ih (idx + 1) j (fun g hg => hall g (List.mem_cons_of_mem f0 hg))
        (by simpa using hj)]
      congr 2
      omega

/-- C8: field order is preserved end-to-end.  The value implementation's
constructor body, in both modes, is exactly the per-component entries in
declaration order; each entry's field identifier is its component's; a named
field keeps its identifier at its own position; and when all fields are
positional they receive indices 0, 1, 2, … in declaration order. -/
theorem C8_theorem (ast : DeriveInput) (op : String) (wc : List WherePredicate)
    (fields : List FieldDecl)
    (hwc : ast.generics.where_clause = some wc)
    (hcomps : create_components_iter ast = some (componentsFrom 0 fields)) :
    (((bc_ops ast [op]).getD [])[0]?).bind Impl.valueBody =
      some ((componentsFrom 0 fields).map (bcValueEntry op (to_lowercase op))) ∧
    (((cw_ops ast [op]).getD [])[0]?).bind Impl.valueBody =
      some ((componentsFrom 0 fields).map (cwValueEntry op (to_lowercase op))) ∧
    (componentsFrom 0 fields).length = fields.length ∧
    (∀ j : Nat, (((componentsFrom 0 fields).map (bcValueEntry op (to_lowercase op)))[j]?).map
        Prod.fst = ((componentsFrom 0 fields)[j]?).map ComponentCase.ident) ∧
    (∀ j : Nat, (((componentsFrom 0 fields).map (cwValueEntry op (to_lowercase op)))[j]?).map
        Prod.fst = ((componentsFrom 0 fields)[j]?).map ComponentCase.ident) ∧
    (∀ (j : Nat) (f : FieldDecl) (s : String), fields[j]? = some f → f.ident = some s →
      ((componentsFrom 0 fields)[j]?).map ComponentCase.ident =
        some (FieldIdent.namedI s)) ∧
    ((∀ f ∈ fields, f.ident = none) → ∀ j : Nat, j < fields.length →
      ((componentsFrom 0 fields)[j]?).map ComponentCase.ident =
        some (FieldIdent.indexI j)) := by
  refine ⟨?_, ?_, componentsFrom_length 0 fields, ?_, ?_, ?_, ?_⟩
  · simp [bc_ops, bcOpImpls_eq ast op wc _ hwc hcomps, Impl.valueBody]
  · simp [cw_ops, cwOpImpls_eq ast op wc _ hwc hcomps, Impl.valueBody]
  · intro j
    rw [List.getElem?_map]
    cases h : (componentsFrom 0 fields)[j]? with
    | none => rfl
    | some c => simp [bcValueEntry_fst]
  · intro j
    rw [List.getElem?_map]
    cases h : (componentsFrom 0 fields)[j]? with
    | none => rfl
    | some c => simp [cwValueEntry_fst]
  · intro j f s hf hs
    exact componentsFrom_ident_named fields 0 j f s hf hs
  · intro hall j hj
    simpa using componentsFrom_ident_unnamed fields 0 j hall hj

/-- The three positional fields of the C8 witness declaration. -/
def c8Fields : List FieldDecl := [⟨none, []⟩, ⟨none, []⟩, ⟨none, []⟩]

/-- Declaration `struct Triple<T>(T, T, T) where T: Scalar;`. -/
def c8Ast : DeriveInput :=
  { ident := "Triple"
    generics :=
      { params := [.typeParam "T" [] none]
        where_clause := some [.typeP tyT [scalarB]] }
    data := .structD (.unnamed c8Fields) }

/-- C8 witness: on a concrete three-field tuple struct, the emitted value
body is the components in order, the component count matches the field count,
entry 1 names component 1's field, and the positional field at position 2 is
assigned index 2. -/
theorem C8_witness :
    (((bc_ops c8Ast ["Add"]).getD [])[0]?).bind Impl.valueBody =
      some ((componentsFrom 0 c8Fields).map (bcValueEntry "Add" (to_lowercase "Add"))) ∧
    (componentsFrom 0 c8Fields).length = c8Fields.length ∧
    (((componentsFrom 0 c8Fields).map (bcValueEntry "Add" (to_lowercase "Add")))[1]?).map
        Prod.fst = ((componentsFrom 0 c8Fields)[1]?).map ComponentCase.ident ∧
    ((componentsFrom 0 c8Fields)[2]?).map ComponentCase.ident =
      some (FieldIdent.indexI 2) := by
  have H := C8_theorem c8Ast "Add" [.typeP tyT [scalarB]] c8Fields rfl rfl
  exact ⟨H.1, H.2.2.1, H.2.2.2.1 1, H.2.2.2.2.2.2 (by decide) 2 (by decide)⟩
